import Mathlib

/-!
Verification of the perf-x-ray rule-matching core (`src/checker.js`,
`src/rules.js`, `src/scanner.js`).

Text is modelled as `List Char` (one entry per code point).  The JS regex
engine used by the catalog patterns is modelled by a small backtracking
matcher over an explicit pattern AST (`RE`): `endsF` returns the possible
match end positions at a given start position, in backtracking preference
order (greedy alternatives first), and `reExec` implements
`RegExp.prototype.exec` with the `g` flag: it finds the leftmost position at
or after `lastIndex` where the pattern matches, and returns the match span
preferred by the backtracking order.
-/

namespace PerfXray

/-- Text is modelled as a list of characters. -/
abbrev Str := List Char

/-- Turn a Lean string literal into the character-list representation. -/
def str (s : String) : Str := s.data

/-- JS regex `\w`: ASCII word characters `[A-Za-z0-9_]`. -/
def wordChar (c : Char) : Bool :=
  (decide ('a' ≤ c) && decide (c ≤ 'z')) || (decide ('A' ≤ c) && decide (c ≤ 'Z')) ||
  (decide ('0' ≤ c) && decide (c ≤ '9')) || c == '_'

/-- JS regex `\s` (also the character class trimmed by `String.prototype.trim`):
whitespace and line terminators. -/
def jsSpace (c : Char) : Bool :=
  c == '\t' || c == '\n' || c == '\x0b' || c == '\x0c' || c == '\r' || c == ' ' ||
  c == '\u00a0' || c == '\u1680' || (decide ('\u2000' ≤ c) && decide (c ≤ '\u200a')) ||
  c == '\u2028' || c == '\u2029' || c == '\u202f' || c == '\u205f' || c == '\u3000' ||
  c == '\ufeff'

/-- JS regex `.` (no `s` flag): any character except a line terminator. -/
def dotChar (c : Char) : Bool :=
  !(c == '\n' || c == '\r' || c == '\u2028' || c == '\u2029')

/-- Pattern AST covering the regex features used by the rule catalog. -/
inductive RE where
  | eps : RE
  | cls (p : Char → Bool) : RE
  | cat (a b : RE) : RE
  | alt (a b : RE) : RE
  | star (a : RE) : RE
  | starL (a : RE) : RE
  | repMax (n : Nat) (a : RE) : RE
  | nlook (a : RE) : RE
  | wordB : RE

/-- Structural size of a pattern, used to compute a generous fuel bound. -/
def RE.size : RE → Nat
  | .eps => 1
  | .cls _ => 1
  | .cat a b => a.size + b.size + 1
  | .alt a b => a.size + b.size + 1
  | .star a => a.size + 1
  | .starL a => a.size + 1
  | .repMax _ a => a.size + 1
  | .nlook a => a.size + 1
  | .wordB => 1

/-- Whether the character at position `i` (if any) is a word character. -/
def wordAt (s : Str) (i : Nat) : Bool :=
  match s.get? i with
  | some c => wordChar c
  | none => false

/-- Whether the character just before position `i` (if any) is a word character. -/
def leftWordAt (s : Str) (i : Nat) : Bool :=
  match i with
  | 0 => false
  | Nat.succ k => wordAt s k

/-- Possible end positions of a match of `re` starting at position `i` of `s`,
in backtracking preference order (the JS engine commits to the first one whose
continuation succeeds; the caller takes the head for the whole-pattern span).
Quantifiers drop empty iterations, as the JS engine terminates a quantifier
loop when an iteration matches the empty string.  `fuel` bounds the recursion
depth and is chosen large enough by `reFuel`. -/
def endsF : Nat → RE → Str → Nat → List Nat
  | 0, _, _, _ => []
  | _ + 1, RE.eps, _, i => [i]
  | _ + 1, RE.cls p, s, i =>
    match s.get? i with
    | some c => if p c then [i + 1] else []
    | none => []
  | fuel + 1, RE.cat a b, s, i => (endsF fuel a s i).flatMap (fun j => endsF fuel b s j)
  | fuel + 1, RE.alt a b, s, i => endsF fuel a s i ++ endsF fuel b s i
  | fuel + 1, RE.star a, s, i =>
    ((endsF fuel a s i).filter (fun j => decide (i < j))).flatMap
      (fun j => endsF fuel (RE.star a) s j) ++ [i]
  | fuel + 1, RE.starL a, s, i =>
    i :: ((endsF fuel a s i).filter (fun j => decide (i < j))).flatMap
      (fun j => endsF fuel (RE.starL a) s j)
  | _ + 1, RE.repMax 0 _, _, i => [i]
  | fuel + 1, RE.repMax (Nat.succ n) a, s, i =>
    ((endsF fuel a s i).filter (fun j => decide (i < j))).flatMap
      (fun j => endsF fuel (RE.repMax n a) s j) ++ [i]
  | fuel + 1, RE.nlook a, s, i => if endsF fuel a s i = [] then [i] else []
  | _ + 1, RE.wordB, s, i => if leftWordAt s i = wordAt s i then [] else [i]

/-- Fuel that is large enough for `endsF`: along every recursion path the pair
(remaining characters, pattern size) decreases lexicographically. -/
def reFuel (re : RE) (s : Str) : Nat := (s.length + 1) * (re.size + 1) + 1

/-- Scan forward from position `j` for the leftmost match, trying at most
`steps` start positions. -/
def reExecAux (re : RE) (s : Str) : Nat → Nat → Option (Nat × Nat)
  | _, 0 => none
  | j, Nat.succ steps =>
    match (endsF (reFuel re s) re s j).head? with
    | some e => some (j, e)
    | none => reExecAux re s (j + 1) steps

/-- Model of `RegExp.prototype.exec` with the `g` flag: search from `start`
(the regex object's `lastIndex`), returning the span `(index, endIndex)` of
the leftmost match, or `none` past the end of the string. -/
def reExec (re : RE) (s : Str) (start : Nat) : Option (Nat × Nat) :=
  reExecAux re s start (s.length + 1 - start)

/-- Literal character. -/
def chr (c : Char) : RE := RE.cls (fun x => x == c)

/-- Literal character under the `i` flag (case-insensitive). -/
def chri (c : Char) : RE := RE.cls (fun x => x.toLower == c.toLower)

/-- Sequence of patterns. -/
def seqRE : List RE → RE
  | [] => RE.eps
  | [r] => r
  | r :: rs => RE.cat r (seqRE rs)

/-- Literal string. -/
def strR (s : String) : RE := seqRE (s.data.map chr)

/-- Literal string under the `i` flag. -/
def strRi (s : String) : RE := seqRE (s.data.map chri)

/-- Alternation over a list, preferring earlier entries. -/
def altRE : List RE → RE
  | [] => RE.cls (fun _ => false)
  | [r] => r
  | r :: rs => RE.alt r (altRE rs)

/-- Greedy `+`. -/
def plusRE (a : RE) : RE := RE.cat a (RE.star a)

/-- Greedy `?`. -/
def optRE (a : RE) : RE := RE.alt a RE.eps

/-- Class `\w`. -/
def wordRE : RE := RE.cls wordChar

/-- Class `\s`. -/
def spaceRE : RE := RE.cls jsSpace

/-- Class `[\s\S]`: any character. -/
def anyRE : RE := RE.cls (fun _ => true)

/-- Class `.`: any character except a line terminator. -/
def dotRE : RE := RE.cls dotChar

/-- Class `['"]`. -/
def quoteRE : RE := RE.cls (fun c => c == '\'' || c == '"')

/-! ## Language resolver (`src/scanner.js`, `getLanguage`) -/

/-- Trailing path separators, which `path.extname` ignores. -/
def dropTrailingSlashes (p : Str) : Str :=
  (p.reverse.dropWhile (fun c => c == '/')).reverse

/-- Portion of the path after the last `/` separator. -/
def basenameOf (p : Str) : Str :=
  (p.reverse.takeWhile (fun c => !(c == '/'))).reverse

/-- Index of the last `.` in a string, if any. -/
def lastDotIdx : Str → Option Nat
  | [] => none
  | c :: rest =>
    match lastDotIdx rest with
    | some k => some (k + 1)
    | none => if c = '.' then some 0 else none

/-- Model of Node's `path.extname` (posix): the extension from the last `.` of
the last portion of the path to the end; empty when the basename has no dot,
when its only leading character is a dot (hidden files), or for `..`. -/
def extname (p : Str) : Str :=
  let b := basenameOf (dropTrailingSlashes p)
  if b = str ".." then []
  else
    match lastDotIdx b with
    | none => []
    | some 0 => []
    | some (Nat.succ d) => b.drop (d + 1)

/-- Model of `String.prototype.replace('.', '')`: remove the first `.`. -/
def replaceFirstDot : Str → Str
  | [] => []
  | c :: rest => if c = '.' then rest else c :: replaceFirstDot rest

/-- Model of `String.prototype.toLowerCase` (per character), restricted to the
ASCII case mapping of `Char.toLower`; JS lowercases the full Unicode range, so
theorems about `getLanguage` are scoped to paths with ASCII extensions. -/
def toLowerStr (s : Str) : Str := s.map Char.toLower

/-- The property keys every plain object literal inherits from
`Object.prototype`: reading one of these on `{ low: 0, ... }` or the extension
map yields the inherited function (or, for `__proto__`, the prototype object),
which is not nullish, so a following `?? d` does not fire. -/
def objectProtoKeys : List Str :=
  [str "constructor", str "hasOwnProperty", str "isPrototypeOf",
   str "propertyIsEnumerable", str "toLocaleString", str "toString",
   str "valueOf", str "__defineGetter__", str "__defineSetter__",
   str "__lookupGetter__", str "__lookupSetter__", str "__proto__"]

/-- A JS value read from a string-valued object literal: either a proper
string, or a member inherited from `Object.prototype` (a function or the
prototype object — in particular not a string). -/
inductive JsStr where
  | strv (s : Str) : JsStr
  | inherited (k : Str) : JsStr
deriving DecidableEq, Repr

/-- The extension-to-language object literal in `getLanguage`. -/
def extMap (e : Str) : Option Str :=
  if e = str "js" then some (str "js")
  else if e = str "mjs" then some (str "js")
  else if e = str "cjs" then some (str "js")
  else if e = str "jsx" then some (str "js")
  else if e = str "ts" then some (str "ts")
  else if e = str "tsx" then some (str "ts")
  else if e = str "py" then some (str "py")
  else if e = str "go" then some (str "go")
  else if e = str "sql" then some (str "sql")
  else none

/-- The property read `map[ext]` on the object literal of `getLanguage`:
an own entry gives its string, an `Object.prototype` key gives the inherited
member, anything else is `undefined` (`none`). -/
def jsExtLookup (e : Str) : Option JsStr :=
  match extMap e with
  | some t => some (JsStr.strv t)
  | none => if objectProtoKeys.contains e then some (JsStr.inherited e) else none

/-- Function `getLanguage` from `src/scanner.js`:
`const ext = extname(filePath).toLowerCase().replace('.', ''); return map[ext] ?? ext;` —
including the prototype chain of the object-literal lookup: for an extension
that is an `Object.prototype` key the result is the inherited member, not the
extension string. -/
def getLanguage (filePath : Str) : JsStr :=
  let ext := replaceFirstDot (toLowerStr (extname filePath))
  (jsExtLookup ext).getD (JsStr.strv ext)

/-! ## Rule catalog (`src/rules.js`) -/

/-- A catalog rule: `{ id, name, severity, languages, pattern, message, suggestion }`. -/
structure Rule where
  id : Str
  name : Str
  severity : Str
  languages : List Str
  pattern : RE
  message : Str
  suggestion : Str

/-- A finding emitted by the checker. -/
structure Finding where
  ruleId : Str
  ruleName : Str
  severity : Str
  file : Str
  line : Nat
  snippet : Str
  message : Str
  suggestion : Str
deriving DecidableEq, Repr

/-- Pattern of rule `sync-io`:
`/\b(readFileSync|writeFileSync|appendFileSync|existsSync|mkdirSync|readdirSync|statSync|unlinkSync|renameSync|copyFileSync)\b/g` -/
def syncIoPat : RE :=
  seqRE [RE.wordB,
    altRE [strR "readFileSync", strR "writeFileSync", strR "appendFileSync",
      strR "existsSync", strR "mkdirSync", strR "readdirSync", strR "statSync",
      strR "unlinkSync", strR "renameSync", strR "copyFileSync"],
    RE.wordB]

/-- Pattern of rule `n-plus-one`:
`/for[\s\S]{0,60}(query|findOne|findAll|find\(|select\(|\.get\(|\.fetch\(|db\.|prisma\.|orm\.)/g` -/
def nPlusOnePat : RE :=
  seqRE [strR "for", RE.repMax 60 anyRE,
    altRE [strR "query", strR "findOne", strR "findAll", strR "find(",
      strR "select(", strR ".get(", strR ".fetch(", strR "db.",
      strR "prisma.", strR "orm."]]

/-- Pattern of rule `unbounded-query`:
`/SELECT\s+[\w\s,*]+FROM\s+\w+(?!\s*WHERE[\s\S]*LIMIT|\s*LIMIT)/gi` -/
def unboundedQueryPat : RE :=
  seqRE [strRi "SELECT", plusRE spaceRE,
    plusRE (RE.cls (fun c => wordChar c || jsSpace c || c == ',' || c == '*')),
    strRi "FROM", plusRE spaceRE, plusRE wordRE,
    RE.nlook (RE.alt
      (seqRE [RE.star spaceRE, strRi "WHERE", RE.star anyRE, strRi "LIMIT"])
      (seqRE [RE.star spaceRE, strRi "LIMIT"]))]

/-- Pattern of rule `large-import`:
`/import\s+\w+\s+from\s+['"](?:lodash|moment|ramda|rxjs|antd|@mui\/material|date-fns)['"];?/g` -/
def largeImportPat : RE :=
  seqRE [strR "import", plusRE spaceRE, plusRE wordRE, plusRE spaceRE,
    strR "from", plusRE spaceRE, quoteRE,
    altRE [strR "lodash", strR "moment", strR "ramda", strR "rxjs",
      strR "antd", strR "@mui/material", strR "date-fns"],
    quoteRE, optRE (chr ';')]

/-- Pattern of rule `missing-memo`:
`/(?:export\s+(?:default\s+)?function|const\s+\w+\s*=\s*(?:\([\s\S]*?\)|[\w]+)\s*=>)\s*[\s\S]{0,400}return\s*\([\s\S]{0,600}\<[\w.]+/g` -/
def missingMemoPat : RE :=
  seqRE [RE.alt
      (seqRE [strR "export", plusRE spaceRE,
        optRE (RE.cat (strR "default") (plusRE spaceRE)), strR "function"])
      (seqRE [strR "const", plusRE spaceRE, plusRE wordRE, RE.star spaceRE,
        chr '=', RE.star spaceRE,
        RE.alt (seqRE [chr '(', RE.starL anyRE, chr ')']) (plusRE wordRE),
        RE.star spaceRE, strR "=>"]),
    RE.star spaceRE, RE.repMax 400 anyRE, strR "return", RE.star spaceRE,
    chr '(', RE.repMax 600 anyRE, chr '<',
    plusRE (RE.cls (fun c => wordChar c || c == '.'))]

/-- Pattern of rule `console-in-prod`:
`/console\.(log|warn|error|info|debug|trace)\(/g` -/
def consoleInProdPat : RE :=
  seqRE [strR "console.",
    altRE [strR "log", strR "warn", strR "error", strR "info", strR "debug",
      strR "trace"],
    chr '(']

/-- The loop-construct alternation of rule `nested-loops`:
`(?:for|\.forEach|\.map|\.filter|\.reduce)` -/
def loopAltRE : RE :=
  altRE [strR "for", strR ".forEach", strR ".map", strR ".filter", strR ".reduce"]

/-- Pattern of rule `nested-loops`:
`/(?:for|\.forEach|\.map|\.filter|\.reduce)\s*[\s\S]{0,200}(?:for|\.forEach|\.map|\.filter|\.reduce)/g` -/
def nestedLoopsPat : RE :=
  seqRE [loopAltRE, RE.star spaceRE, RE.repMax 200 anyRE, loopAltRE]

/-- Pattern of rule `no-pagination`:
`/(?:app|router)\.(get|post)\s*\(['"]\/\w[\w/]*['"]\s*,[\s\S]{0,600}(?:find|findAll|select|query|aggregate)\s*\((?![\s\S]{0,100}(?:limit|take|page|offset|skip))/g` -/
def noPaginationPat : RE :=
  seqRE [RE.alt (strR "app") (strR "router"), chr '.',
    RE.alt (strR "get") (strR "post"), RE.star spaceRE, chr '(', quoteRE,
    chr '/', wordRE, RE.star (RE.cls (fun c => wordChar c || c == '/')), quoteRE,
    RE.star spaceRE, chr ',', RE.repMax 600 anyRE,
    altRE [strR "find", strR "findAll", strR "select", strR "query",
      strR "aggregate"],
    RE.star spaceRE, chr '(',
    RE.nlook (RE.cat (RE.repMax 100 anyRE)
      (altRE [strR "limit", strR "take", strR "page", strR "offset",
        strR "skip"]))]

/-- One regex-literal chunk of rule `blocking-regex`: `(?:[^/\\]|\\.)*` -/
def reChunkRE : RE :=
  RE.star (RE.alt (RE.cls (fun c => !(c == '/' || c == '\\')))
    (RE.cat (chr '\\') dotRE))

/-- One quantifier of rule `blocking-regex`: `(?:\+|\*|\{[^}]+\})` -/
def quantRE : RE :=
  altRE [chr '+', chr '*',
    seqRE [chr '{', plusRE (RE.cls (fun c => !(c == '}'))), chr '}']]

/-- Pattern of rule `blocking-regex`:
`/\/(?:[^/\\]|\\.)*(?:\+|\*|\{[^}]+\})(?:[^/\\]|\\.)*(?:\+|\*|\{[^}]+\})(?:[^/\\]|\\.)*\//g` -/
def blockingRegexPat : RE :=
  seqRE [chr '/', reChunkRE, quantRE, reChunkRE, quantRE, reChunkRE, chr '/']

/-- Pattern of rule `missing-index-hint`:
`/WHERE\s+(?!id\b|_id\b|pk\b|uuid\b)(\w+)\s*(?:=|LIKE|IN|>|<)/gi` -/
def missingIndexHintPat : RE :=
  seqRE [strRi "WHERE", plusRE spaceRE,
    RE.nlook (altRE [RE.cat (strRi "id") RE.wordB, RE.cat (strRi "_id") RE.wordB,
      RE.cat (strRi "pk") RE.wordB, RE.cat (strRi "uuid") RE.wordB]),
    plusRE wordRE, RE.star spaceRE,
    altRE [chr '=', strRi "LIKE", strRi "IN", chr '>', chr '<']]

/-- The rule catalog `RULES` of `src/rules.js`, in declaration order. -/
def RULES : List Rule := [
  { id := str "sync-io",
    name := str "Synchronous I/O in Async Context",
    severity := str "high",
    languages := [str "js", str "ts"],
    pattern := syncIoPat,
    message := str "Synchronous filesystem call blocks the event loop.",
    suggestion := str "Replace with the async equivalent (e.g. fs.promises.readFile, readdir). Use await inside an async function." },
  { id := str "n-plus-one",
    name := str "N+1 Query Pattern",
    severity := str "critical",
    languages := [str "js", str "ts", str "py", str "go"],
    pattern := nPlusOnePat,
    message := str "Database query inside a loop causes N+1 queries — each iteration hits the DB.",
    suggestion := str "Batch the IDs, fetch once outside the loop (e.g. findMany(\x7b where: \x7b id: \x7b in: ids \x7d \x7d \x7d)), then map results." },
  { id := str "unbounded-query",
    name := str "Unbounded SQL Query",
    severity := str "high",
    languages := [str "js", str "ts", str "py", str "go", str "sql"],
    pattern := unboundedQueryPat,
    message := str "SELECT without LIMIT can return millions of rows and exhaust memory.",
    suggestion := str "Always add a LIMIT clause or paginate results. For reports, stream the result set." },
  { id := str "large-import",
    name := str "Large Barrel Import",
    severity := str "medium",
    languages := [str "js", str "ts"],
    pattern := largeImportPat,
    message := str "Importing the entire library pulls in megabytes of unused code.",
    suggestion := str "Use subpath imports: import debounce from \"lodash/debounce\" or import \x7b debounce \x7d from \"lodash-es\"." },
  { id := str "missing-memo",
    name := str "Expensive React Render Without Memoisation",
    severity := str "medium",
    languages := [str "js", str "ts"],
    pattern := missingMemoPat,
    message := str "Large component re-renders on every parent update without memoisation.",
    suggestion := str "Wrap with React.memo() for components or useMemo()/useCallback() for expensive values/handlers." },
  { id := str "console-in-prod",
    name := str "console.log in Production Code",
    severity := str "low",
    languages := [str "js", str "ts"],
    pattern := consoleInProdPat,
    message := str "console calls add overhead and leak information in production.",
    suggestion := str "Remove debug logs or replace with a structured logger (pino, winston) that respects LOG_LEVEL." },
  { id := str "nested-loops",
    name := str "Nested Iteration — O(n²) Complexity",
    severity := str "high",
    languages := [str "js", str "ts", str "py", str "go"],
    pattern := nestedLoopsPat,
    message := str "Nested loops over arrays create O(n²) complexity — devastating at scale.",
    suggestion := str "Flatten with a Map/Set for O(n) lookup, or restructure data before iteration." },
  { id := str "no-pagination",
    name := str "API Endpoint Without Pagination",
    severity := str "high",
    languages := [str "js", str "ts", str "py"],
    pattern := noPaginationPat,
    message := str "API returns all records with no pagination — response grows unbounded with data.",
    suggestion := str "Accept ?page=&limit= query params, add LIMIT/OFFSET (or cursor-based pagination) to every list endpoint." },
  { id := str "blocking-regex",
    name := str "Catastrophic Regex Backtracking",
    severity := str "critical",
    languages := [str "js", str "ts", str "py", str "go"],
    pattern := blockingRegexPat,
    message := str "Regex with nested quantifiers can backtrack exponentially on crafted input (ReDoS).",
    suggestion := str "Rewrite using atomic groups or possessive quantifiers. Test with redos-detector or safe-regex." },
  { id := str "missing-index-hint",
    name := str "Filter on Likely Unindexed Column",
    severity := str "medium",
    languages := [str "js", str "ts", str "py", str "go", str "sql"],
    pattern := missingIndexHintPat,
    message := str "Filtering on a column that is probably not indexed causes a full table scan.",
    suggestion := str "Add a database index on the filtered column: CREATE INDEX idx_table_column ON table(column)." }]

/-- Function `getRulesForLanguage` from `src/rules.js`:
`RULES.filter((r) => r.languages.includes(lang))` — `includes` compares the
array's strings against `lang` with SameValueZero, so an inherited
(non-string) `lang` matches nothing. -/
def getRulesForLanguage (lang : JsStr) : List Rule :=
  RULES.filter (fun r => (r.languages.map JsStr.strv).contains lang)

/-! ## Match engine (`src/checker.js`) -/

/-- Function `getLineNumber` from `src/checker.js`: 1-based line number for a character
offset, counting line feeds before the offset. -/
def getLineNumber (content : Str) (index : Nat) : Nat :=
  (content.take index).foldl (fun l c => if c = '\n' then l + 1 else l) 1

/-- Model of `content.split('\n')`. -/
def splitLines : Str → List Str
  | [] => [[]]
  | c :: rest =>
    if c = '\n' then [] :: splitLines rest
    else
      match splitLines rest with
      | [] => [[c]]
      | l :: ls => (c :: l) :: ls

/-- Model of `String.prototype.trim`. -/
def jsTrim (s : Str) : Str :=
  ((s.dropWhile jsSpace).reverse.dropWhile jsSpace).reverse

/-- Function `getSnippet` from `src/checker.js`:
`const raw = (lines[lineIdx] ?? '').trim(); return raw.length > 120 ? raw.slice(0, 117) + '...' : raw;` -/
def getSnippet (lines : List Str) (lineIdx : Nat) : Str :=
  let raw := jsTrim (lines.getD lineIdx [])
  if 120 < raw.length then raw.take 117 ++ str "..." else raw

/-- The finding object pushed by `checkFile` for a match of `rule` at offset `j`. -/
def mkFinding (rule : Rule) (filePath : Str) (content : Str) (lines : List Str)
    (j : Nat) : Finding :=
  { ruleId := rule.id
    ruleName := rule.name
    severity := rule.severity
    file := filePath
    line := getLineNumber content j
    snippet := getSnippet lines (getLineNumber content j - 1)
    message := rule.message
    suggestion := rule.suggestion }

/-- The `while ((match = rx.exec(content)) !== null)` loop of `checkFile` for a
single rule.  `lastIndex` is the regex object's `lastIndex`; `findings` is the
accumulated findings array.  A zero-width match (`match.index === rx.lastIndex`)
emits nothing and bumps `lastIndex` by one; otherwise a finding is pushed and
the loop breaks once the rule has 5 findings for this file.  `fuel` bounds the
number of iterations; `checkFile` runs it with fuel `content.length + 1`,
which theorem `scan_terminates` below proves is past the point where the
result stabilizes (the loop always exits that early). -/
def ruleScanF : Nat → Rule → Str → Str → List Str → Nat → List Finding → List Finding
  | 0, _, _, _, _, _, findings => findings
  | fuel + 1, rule, fp, content, lines, lastIndex, findings =>
    match reExec rule.pattern content lastIndex with
    | none => findings
    | some (j, e) =>
      if j = e then
        ruleScanF fuel rule fp content lines (e + 1) findings
      else
        let findings' := findings ++ [mkFinding rule fp content lines j]
        if 5 ≤ ((findings'.filter
            (fun g => decide (g.ruleId = rule.id ∧ g.file = fp))).length) then
          findings'
        else ruleScanF fuel rule fp content lines e findings'

/-- The `for (const rule of rules)` loop of `checkFile`. -/
def rulesFold : List Rule → Str → Str → List Str → List Finding → List Finding
  | [], _, _, _, findings => findings
  | rule :: rest, fp, content, lines, findings =>
    rulesFold rest fp content lines
      (ruleScanF (content.length + 1) rule fp content lines 0 findings)

/-- Function `checkFile` from `src/checker.js`. -/
def checkFile (filePath : Str) (content : Str) : List Finding :=
  let lang := getLanguage filePath
  let rules := getRulesForLanguage lang
  let lines := splitLines content
  rulesFold rules filePath content lines []

/-- The `severityRank` object of `checkFiles`: `{ low: 0, medium: 1, high: 2, critical: 3 }`. -/
def severityRank (s : Str) : Option Nat :=
  if s = str "low" then some 0
  else if s = str "medium" then some 1
  else if s = str "high" then some 2
  else if s = str "critical" then some 3
  else none

/-- A JS value read from the `severityRank` object literal (after `?? 0`):
either a number, or a member inherited from `Object.prototype` (a function or
the prototype object — not a number). -/
inductive JsRank where
  | num (n : Nat) : JsRank
  | inherited (k : Str) : JsRank
deriving DecidableEq, Repr

/-- The property read `severityRank[s]` including the prototype chain: an own
entry gives its number, an `Object.prototype` key gives the inherited member,
anything else is `undefined` (`none`). -/
def jsRankLookup (s : Str) : Option JsRank :=
  match severityRank s with
  | some n => some (JsRank.num n)
  | none => if objectProtoKeys.contains s then some (JsRank.inherited s) else none

/-- Value of `severityRank[x] ?? 0`: the `??` fires only on `undefined`, so an
inherited `Object.prototype` member passes through. -/
def rankOrDefault (s : Str) : JsRank := (jsRankLookup s).getD (JsRank.num 0)

/-- Computation `const minRank = severity ? (severityRank[severity] ?? 0) : 0;` —
`severity` is `opts.severity`; a missing or empty (falsy) string gives rank 0. -/
def minRankOf (severity : Option Str) : JsRank :=
  match severity with
  | none => JsRank.num 0
  | some s => if s = [] then JsRank.num 0 else rankOrDefault s

/-- The JS comparison `a >= b` on rank values: between numbers it is the
numeric order; when either side is an inherited function or object, its
numeric coercion is `NaN` and the comparison is `false`. -/
def jsGe : JsRank → JsRank → Bool
  | JsRank.num a, JsRank.num b => decide (b ≤ a)
  | _, _ => false

/-- The `for (const fp of filePaths)` loop of `checkFiles`: unreadable files
(`readFn` returning `none` models `readFn` throwing) are skipped, and each
file's findings are filtered by the severity floor before being pushed. -/
def checkFilesGo (readFn : Str → Option Str) (minRank : JsRank) : List Str → List Finding
  | [] => []
  | fp :: rest =>
    match readFn fp with
    | none => checkFilesGo readFn minRank rest
    | some content =>
      (checkFile fp content).filter
        (fun f => jsGe (rankOrDefault f.severity) minRank)
        ++ checkFilesGo readFn minRank rest

/-- Function `checkFiles` from `src/checker.js`. -/
def checkFiles (filePaths : List Str) (readFn : Str → Option Str)
    (severity : Option Str) : List Finding :=
  checkFilesGo readFn (minRankOf severity) filePaths

/-- Per-rule slices of the `findings` array of `checkFile`: element `k` is the
block of findings appended by the `k`-th applicable rule's scan loop. -/
def segmentsAux : List Rule → Str → Str → List Str → List Finding → List (List Finding)
  | [], _, _, _, _ => []
  | rule :: rest, fp, content, lines, findings =>
    let findings' := ruleScanF (content.length + 1) rule fp content lines 0 findings
    findings'.drop findings.length :: segmentsAux rest fp content lines findings'

/-- The per-rule finding blocks of a `checkFile` run, in catalog order. -/
def checkFileSegments (filePath : Str) (content : Str) : List (List Finding) :=
  segmentsAux (getRulesForLanguage (getLanguage filePath)) filePath content
    (splitLines content) []

/-! ## Definitions modelled from the spec (for the refinement claim C7) -/

/-- Modelled from the spec: the extension-to-tag table of section 4.1
(`js`,`mjs`,`cjs`,`jsx`→`js`; `ts`,`tsx`→`ts`; `py`→`py`; `go`→`go`; `sql`→`sql`). -/
def langTable : List (Str × Str) :=
  [(str "js", str "js"), (str "mjs", str "js"), (str "cjs", str "js"),
   (str "jsx", str "js"), (str "ts", str "ts"), (str "tsx", str "ts"),
   (str "py", str "py"), (str "go", str "go"), (str "sql", str "sql")]

/-- Strip one leading dot, if present. -/
def stripLeadingDot : Str → Str
  | [] => []
  | c :: rest => if c = '.' then rest else c :: rest

/-- Modelled from the spec, amended by the prototype-chain counterexample:
resolve a path's language tag by extracting the extension case-insensitively,
stripping the leading dot and mapping known extensions through the table; an
unknown extension that is not an `Object.prototype` key passes through
unchanged, while an `Object.prototype` key yields the inherited member. -/
def languageSpec (filePath : Str) : JsStr :=
  let e := toLowerStr (stripLeadingDot (extname filePath))
  match langTable.lookup e with
  | some t => JsStr.strv t
  | none => if objectProtoKeys.contains e then JsStr.inherited e else JsStr.strv e

/-! ## Lemmas about the regex engine -/

/-- Match end positions lie between the start position and the string length. -/
theorem endsF_bound : ∀ (fuel : Nat) (re : RE) (s : Str) (i e : Nat),
    e ∈ endsF fuel re s i → i ≤ e ∧ e ≤ max i s.length := by
  intro fuel
  induction fuel with
  | zero => intro re s i e h; simp [endsF] at h
  | succ fuel ih =>
    intro re s i e h
    cases re with
    | eps =>
      simp only [endsF, List.mem_singleton] at h
      omega
    | cls p =>
      simp only [endsF] at h
      cases hg : s.get? i with
      | none => rw [hg] at h; simp at h
      | some c =>
        rw [hg] at h
        by_cases hp : p c
        · have hlen : i < s.length := by
            by_contra hc
            push_neg at hc
            rw [List.get?_eq_none.mpr hc] at hg
            cases hg
          simp only [hp, if_true, List.mem_singleton] at h
          omega
        · simp [hp] at h
    | cat a b =>
      simp only [endsF, List.mem_flatMap] at h
      obtain ⟨j, hj, he⟩ := h
      have h1 := ih a s i j hj
      have h2 := ih b s j e he
      omega
    | alt a b =>
      simp only [endsF, List.mem_append] at h
      rcases h with h | h
      · exact ih a s i e h
      · exact ih b s i e h
    | star a =>
      simp only [endsF, List.mem_append, List.mem_flatMap, List.mem_filter,
        List.mem_singleton] at h
      rcases h with ⟨j, ⟨hj, hlt⟩, he⟩ | rfl
      · have h1 := ih a s i j hj
        have h2 := ih (RE.star a) s j e he
        omega
      · omega
    | starL a =>
      simp only [endsF, List.mem_cons, List.mem_flatMap, List.mem_filter] at h
      rcases h with rfl | ⟨j, ⟨hj, hlt⟩, he⟩
      · omega
      · have h1 := ih a s i j hj
        have h2 := ih (RE.starL a) s j e he
        omega
    | repMax n a =>
      cases n with
      | zero =>
        simp only [endsF, List.mem_singleton] at h
        omega
      | succ n =>
        simp only [endsF, List.mem_append, List.mem_flatMap, List.mem_filter,
          List.mem_singleton] at h
        rcases h with ⟨j, ⟨hj, hlt⟩, he⟩ | rfl
        · have h1 := ih a s i j hj
          have h2 := ih (RE.repMax n a) s j e he
          omega
        · omega
    | nlook a =>
      simp only [endsF] at h
      by_cases hz : endsF fuel a s i = []
      · simp only [hz, if_true, List.mem_singleton] at h
        omega
      · simp [hz] at h
    | wordB =>
      simp only [endsF] at h
      by_cases hb : leftWordAt s i = wordAt s i
      · simp [hb] at h
      · simp only [hb, if_false, List.mem_singleton] at h
        omega

/-- Characterization of a successful forward search. -/
theorem reExecAux_some : ∀ (steps : Nat) (re : RE) (s : Str) (start j e : Nat),
    reExecAux re s start steps = some (j, e) →
    start ≤ j ∧ j < start + steps ∧ e ∈ endsF (reFuel re s) re s j := by
  intro steps
  induction steps with
  | zero => intro re s start j e h; simp [reExecAux] at h
  | succ steps ih =>
    intro re s start j e h
    rw [reExecAux] at h
    cases hh : (endsF (reFuel re s) re s start).head? with
    | some e0 =>
      rw [hh] at h
      cases h
      exact ⟨Nat.le_refl _, by omega, List.mem_of_mem_head? hh⟩
    | none =>
      rw [hh] at h
      obtain ⟨h1, h2, h3⟩ := ih re s (start + 1) j e h
      exact ⟨by omega, by omega, h3⟩

/-- Contract of the modelled `exec`: the match starts at or after `lastIndex`,
spans forward, and stays inside the string. -/
theorem reExec_ok {re : RE} {s : Str} {start j e : Nat}
    (h : reExec re s start = some (j, e)) :
    start ≤ j ∧ j ≤ e ∧ j ≤ s.length ∧ e ≤ s.length := by
  obtain ⟨h1, h2, h3⟩ := reExecAux_some (s.length + 1 - start) re s start j e h
  obtain ⟨h4, h5⟩ := endsF_bound (reFuel re s) re s j e h3
  omega

/-- Past the end of the string, `exec` finds nothing. -/
theorem reExec_none_of_gt {re : RE} {s : Str} {start : Nat}
    (h : s.length < start) : reExec re s start = none := by
  have : s.length + 1 - start = 0 := by omega
  rw [reExec, this, reExecAux]


/-! ## Lemmas about line numbers and snippets -/

/-- The line-counting fold adds the number of line feeds to its accumulator. -/
theorem foldl_count_nl : ∀ (l : Str) (n : Nat),
    l.foldl (fun acc c => if c = '\n' then acc + 1 else acc) n =
      n + (l.filter (fun c => decide (c = '\n'))).length := by
  intro l
  induction l with
  | nil => intro n; simp
  | cons c rest ih =>
    intro n
    by_cases hc : c = '\n'
    · simp [hc, List.foldl_cons, List.filter_cons, ih]
      omega
    · simp [hc, List.foldl_cons, List.filter_cons, ih]

/-- Line numbers are 1-based. -/
theorem getLineNumber_pos (content : Str) (j : Nat) :
    1 ≤ getLineNumber content j := by
  rw [getLineNumber, foldl_count_nl]
  omega

/-- A line number never exceeds one plus the number of line feeds in the file. -/
theorem getLineNumber_le (content : Str) (j : Nat) :
    getLineNumber content j ≤
      1 + (content.filter (fun c => decide (c = '\n'))).length := by
  rw [getLineNumber, foldl_count_nl]
  have hs : List.Sublist ((content.take j).filter (fun c => decide (c = '\n')))
      (content.filter (fun c => decide (c = '\n'))) :=
    List.Sublist.filter _ (List.take_sublist j content)
  have := hs.length_le
  omega

/-- Snippets are at most 120 characters long. -/
theorem getSnippet_length (lines : List Str) (k : Nat) :
    (getSnippet lines k).length ≤ 120 := by
  simp only [getSnippet]
  by_cases h : 120 < (jsTrim (lines.getD k [])).length
  · rw [if_pos h, List.length_append, List.length_take]
    have h3 : (str "...").length = 3 := rfl
    rw [h3]
    omega
  · rw [if_neg h]
    omega

/-! ## Step equations of the per-rule scan loop -/

/-- The loop exits when `exec` reports no further match. -/
theorem ruleScanF_none {rule : Rule} {fp content : Str} {lines : List Str}
    {li : Nat} {acc : List Finding} (fuel : Nat)
    (h : reExec rule.pattern content li = none) :
    ruleScanF (fuel + 1) rule fp content lines li acc = acc := by
  simp only [ruleScanF]
  rw [h]

/-- A zero-width match (`match.index === rx.lastIndex`) emits no finding and
advances the scan cursor by one. -/
theorem ruleScanF_zw {rule : Rule} {fp content : Str} {lines : List Str}
    {li : Nat} {acc : List Finding} (fuel : Nat) {j : Nat}
    (h : reExec rule.pattern content li = some (j, j)) :
    ruleScanF (fuel + 1) rule fp content lines li acc =
      ruleScanF fuel rule fp content lines (j + 1) acc := by
  simp only [ruleScanF]
  rw [h]
  simp

/-- A positive-width match that brings the rule to 5 findings for this file is
pushed, after which the loop breaks. -/
theorem ruleScanF_push_break {rule : Rule} {fp content : Str} {lines : List Str}
    {li : Nat} {acc : List Finding} (fuel : Nat) {j e : Nat}
    (h : reExec rule.pattern content li = some (j, e)) (hje : j ≠ e)
    (hcap : 5 ≤ (((acc ++ [mkFinding rule fp content lines j]).filter
      (fun g => decide (g.ruleId = rule.id ∧ g.file = fp))).length)) :
    ruleScanF (fuel + 1) rule fp content lines li acc =
      acc ++ [mkFinding rule fp content lines j] := by
  simp only [ruleScanF, h, hje, hcap, if_true, if_false]

/-- A positive-width match below the cap is pushed and the loop continues from
the end of the match. -/
theorem ruleScanF_push_cont {rule : Rule} {fp content : Str} {lines : List Str}
    {li : Nat} {acc : List Finding} (fuel : Nat) {j e : Nat}
    (h : reExec rule.pattern content li = some (j, e)) (hje : j ≠ e)
    (hcap : ¬ 5 ≤ (((acc ++ [mkFinding rule fp content lines j]).filter
      (fun g => decide (g.ruleId = rule.id ∧ g.file = fp))).length)) :
    ruleScanF (fuel + 1) rule fp content lines li acc =
      ruleScanF fuel rule fp content lines e
        (acc ++ [mkFinding rule fp content lines j]) := by
  simp only [ruleScanF, h, hje, hcap, if_true, if_false]

/-! ## Characterization of the per-rule scan loop -/

/-- A scan run appends to the accumulated findings exactly the findings built
from a strictly increasing list of match offsets, each offset coming from a
positive-length match reported by `exec`. -/
theorem ruleScanF_spec : ∀ (fuel : Nat) (rule : Rule) (fp content : Str)
    (lines : List Str) (li : Nat) (acc : List Finding),
    ∃ offs : List Nat,
      ruleScanF fuel rule fp content lines li acc =
        acc ++ offs.map (mkFinding rule fp content lines) ∧
      List.Chain' (· < ·) offs ∧
      ∀ j ∈ offs, li ≤ j ∧
        ∃ i0 e, reExec rule.pattern content i0 = some (j, e) ∧ j < e := by
  intro fuel
  induction fuel with
  | zero =>
    intro rule fp content lines li acc
    exact ⟨[], by simp [ruleScanF], List.chain'_nil, by simp⟩
  | succ fuel ih =>
    intro rule fp content lines li acc
    cases hx : reExec rule.pattern content li with
    | none =>
      exact ⟨[], by rw [ruleScanF_none fuel hx]; simp, List.chain'_nil, by simp⟩
    | some je =>
      obtain ⟨j, e⟩ := je
      obtain ⟨hle1, hle2, hle3, hle4⟩ := reExec_ok hx
      by_cases hje : j = e
      · subst hje
        obtain ⟨offs, h1, h2, h3⟩ := ih rule fp content lines (j + 1) acc
        refine ⟨offs, ?_, h2, ?_⟩
        · rw [ruleScanF_zw fuel hx, h1]
        · intro k hk
          obtain ⟨hb, hrest⟩ := h3 k hk
          exact ⟨by omega, hrest⟩
      · by_cases hcap : 5 ≤ (((acc ++ [mkFinding rule fp content lines j]).filter
            (fun g => decide (g.ruleId = rule.id ∧ g.file = fp))).length)
        · refine ⟨[j], ?_, by simp, ?_⟩
          · rw [ruleScanF_push_break fuel hx hje hcap]
            simp
          · intro k hk
            simp only [List.mem_singleton] at hk
            subst hk
            exact ⟨hle1, li, e, hx, by omega⟩
        · obtain ⟨offs, h1, h2, h3⟩ :=
            ih rule fp content lines e (acc ++ [mkFinding rule fp content lines j])
          refine ⟨j :: offs, ?_, ?_, ?_⟩
          · rw [ruleScanF_push_cont fuel hx hje hcap, h1]
            simp
          · rw [List.chain'_cons']
            refine ⟨?_, h2⟩
            intro b hb
            have hbm : b ∈ offs := List.mem_of_mem_head? hb
            have := (h3 b hbm).1
            omega
          · intro k hk
            rcases List.mem_cons.mp hk with rfl | hk
            · exact ⟨hle1, li, e, hx, by omega⟩
            · obtain ⟨hb, hrest⟩ := h3 k hk
              exact ⟨by omega, hrest⟩

/-- Once below the cap, a scan never pushes the rule's count for this file
past 5: the loop breaks as soon as the count reaches 5. -/
theorem ruleScanF_cap : ∀ (fuel : Nat) (rule : Rule) (fp content : Str)
    (lines : List Str) (li : Nat) (acc : List Finding),
    ((acc.filter (fun g => decide (g.ruleId = rule.id ∧ g.file = fp))).length) < 5 →
    (((ruleScanF fuel rule fp content lines li acc).filter
        (fun g => decide (g.ruleId = rule.id ∧ g.file = fp))).length) ≤ 5 := by
  intro fuel
  induction fuel with
  | zero =>
    intro rule fp content lines li acc h
    rw [show ruleScanF 0 rule fp content lines li acc = acc from rfl]
    omega
  | succ fuel ih =>
    intro rule fp content lines li acc h
    cases hx : reExec rule.pattern content li with
    | none =>
      rw [ruleScanF_none fuel hx]
      omega
    | some je =>
      obtain ⟨j, e⟩ := je
      by_cases hje : j = e
      · subst hje
        rw [ruleScanF_zw fuel hx]
        exact ih rule fp content lines (j + 1) acc h
      · have hcount : (((acc ++ [mkFinding rule fp content lines j]).filter
            (fun g => decide (g.ruleId = rule.id ∧ g.file = fp))).length) =
            ((acc.filter
              (fun g => decide (g.ruleId = rule.id ∧ g.file = fp))).length) + 1 := by
          rw [List.filter_append, List.length_append]
          simp [mkFinding]
        by_cases hcap : 5 ≤ (((acc ++ [mkFinding rule fp content lines j]).filter
            (fun g => decide (g.ruleId = rule.id ∧ g.file = fp))).length)
        · rw [ruleScanF_push_break fuel hx hje hcap]
          omega
        · rw [ruleScanF_push_cont fuel hx hje hcap]
          apply ih
          omega

/-- When `exec` already fails at the current cursor, any amount of fuel
returns the accumulated findings unchanged. -/
theorem ruleScanF_of_none {rule : Rule} {fp content : Str} {lines : List Str}
    {li : Nat} {acc : List Finding}
    (h : reExec rule.pattern content li = none) :
    ∀ fuel, ruleScanF fuel rule fp content lines li acc = acc
  | 0 => rfl
  | fuel + 1 => ruleScanF_none fuel h

/-- The scan loop stabilizes once the fuel covers the number of positions left
in the file: the cursor strictly advances every iteration, so the loop always
exits within `content.length + 1 - lastIndex` iterations. -/
theorem ruleScanF_stable : ∀ (b : Nat) (rule : Rule) (fp content : Str)
    (lines : List Str) (li : Nat), content.length + 1 - li = b →
    ∀ (f1 f2 : Nat) (acc : List Finding), b ≤ f1 → b ≤ f2 →
    ruleScanF f1 rule fp content lines li acc =
      ruleScanF f2 rule fp content lines li acc := by
  intro b
  induction b using Nat.strong_induction_on with
  | _ b ihb =>
    intro rule fp content lines li hb f1 f2 acc h1 h2
    by_cases hli : content.length < li
    · rw [ruleScanF_of_none (reExec_none_of_gt hli) f1,
        ruleScanF_of_none (reExec_none_of_gt hli) f2]
    · push_neg at hli
      have hb1 : 1 ≤ b := by omega
      obtain ⟨f1', rfl⟩ : ∃ k, f1 = k + 1 := ⟨f1 - 1, by omega⟩
      obtain ⟨f2', rfl⟩ : ∃ k, f2 = k + 1 := ⟨f2 - 1, by omega⟩
      cases hx : reExec rule.pattern content li with
      | none => rw [ruleScanF_none f1' hx, ruleScanF_none f2' hx]
      | some je =>
        obtain ⟨j, e⟩ := je
        obtain ⟨hle1, hle2, hle3, hle4⟩ := reExec_ok hx
        by_cases hje : j = e
        · subst hje
          rw [ruleScanF_zw f1' hx, ruleScanF_zw f2' hx]
          exact ihb (content.length + 1 - (j + 1)) (by omega) rule fp content
            lines (j + 1) rfl f1' f2' acc (by omega) (by omega)
        · by_cases hcap : 5 ≤ (((acc ++ [mkFinding rule fp content lines j]).filter
              (fun g => decide (g.ruleId = rule.id ∧ g.file = fp))).length)
          · rw [ruleScanF_push_break f1' hx hje hcap,
              ruleScanF_push_break f2' hx hje hcap]
          · rw [ruleScanF_push_cont f1' hx hje hcap,
              ruleScanF_push_cont f2' hx hje hcap]
            exact ihb (content.length + 1 - e) (by omega) rule fp content
              lines e rfl f1' f2' _ (by omega) (by omega)

/-! ## The rule loop of `checkFile` as per-rule segments -/

/-- The rule loop appends the per-rule segments in catalog order. -/
theorem rulesFold_segments : ∀ (RS : List Rule) (fp content : Str)
    (lines : List Str) (acc : List Finding),
    rulesFold RS fp content lines acc =
      acc ++ (segmentsAux RS fp content lines acc).flatten := by
  intro RS
  induction RS with
  | nil => intro fp content lines acc; simp [rulesFold, segmentsAux]
  | cons rule rest ih =>
    intro fp content lines acc
    obtain ⟨offs, h1, -, -⟩ :=
      ruleScanF_spec (content.length + 1) rule fp content lines 0 acc
    rw [rulesFold, segmentsAux, ih]
    simp only [List.flatten_cons]
    rw [h1, List.drop_left]
    simp

/-- Generic fact: a left member of a `Forall₂` pairing has a related partner. -/
theorem forall₂_mem_left {α β : Type} {R : α → β → Prop} :
    ∀ {l₁ : List α} {l₂ : List β}, List.Forall₂ R l₁ l₂ →
    ∀ {a : α}, a ∈ l₁ → ∃ b ∈ l₂, R a b := by
  intro l₁ l₂ h
  induction h with
  | nil => intro a ha; cases ha
  | cons hr _ ih =>
    intro a ha
    rcases List.mem_cons.mp ha with rfl | ha
    · exact ⟨_, List.mem_cons_self _ _, hr⟩
    · obtain ⟨b, hb, hrb⟩ := ih ha
      exact ⟨b, List.mem_cons_of_mem _ hb, hrb⟩

/-- Each segment pairs with its rule: it is the image, under finding creation,
of a strictly increasing list of positive-length match offsets of that rule. -/
theorem segmentsAux_forall₂ : ∀ (RS : List Rule) (fp content : Str)
    (lines : List Str) (acc : List Finding),
    List.Forall₂ (fun seg rule => ∃ offs : List Nat,
        List.Chain' (· < ·) offs ∧
        seg = offs.map (mkFinding rule fp content lines) ∧
        ∀ j ∈ offs, ∃ i0 e, reExec rule.pattern content i0 = some (j, e) ∧ j < e)
      (segmentsAux RS fp content lines acc) RS := by
  intro RS
  induction RS with
  | nil => intro fp content lines acc; exact List.Forall₂.nil
  | cons rule rest ih =>
    intro fp content lines acc
    obtain ⟨offs, h1, h2, h3⟩ :=
      ruleScanF_spec (content.length + 1) rule fp content lines 0 acc
    rw [segmentsAux]
    refine List.Forall₂.cons ⟨offs, h2, ?_, fun j hj => (h3 j hj).2⟩ (ih fp content lines _)
    rw [h1, List.drop_left]

/-- Function `checkFile` equals the flattened per-rule segments. -/
theorem checkFile_eq_flatten (fp content : Str) :
    checkFile fp content = (checkFileSegments fp content).flatten := by
  rw [checkFile, checkFileSegments, rulesFold_segments]
  simp

/-- Every finding of `checkFile` is created from a positive-length match of an
applicable catalog rule. -/
theorem checkFile_mem {fp content : Str} {f : Finding}
    (hf : f ∈ checkFile fp content) :
    ∃ rule ∈ getRulesForLanguage (getLanguage fp), ∃ j : Nat,
      f = mkFinding rule fp content (splitLines content) j ∧
      ∃ i0 e, reExec rule.pattern content i0 = some (j, e) ∧ j < e := by
  rw [checkFile_eq_flatten] at hf
  obtain ⟨seg, hseg, hfseg⟩ := List.mem_flatten.mp hf
  obtain ⟨rule, hrule, offs, -, h2, h3⟩ :=
    forall₂_mem_left (segmentsAux_forall₂ _ fp content (splitLines content) []) hseg
  subst h2
  obtain ⟨j, hj, rfl⟩ := List.mem_map.mp hfseg
  exact ⟨rule, hrule, j, rfl, h3 j hj⟩

/-! ## Counting findings per rule id through the rule loop -/

/-- Through the rule loop, the number of findings carrying a given rule id for
this file never exceeds 5 (or its initial value, when that is already larger),
provided rule ids are distinct and the initial findings carry none of the
loop's rule ids. -/
theorem rulesFold_count : ∀ (RS : List Rule) (fp content : Str)
    (lines : List Str) (acc : List Finding) (rid : Str),
    ((RS.map Rule.id).Nodup) →
    (∀ r ∈ RS, ∀ f ∈ acc, ¬(f.ruleId = r.id ∧ f.file = fp)) →
    ((rulesFold RS fp content lines acc).filter
        (fun f => decide (f.ruleId = rid ∧ f.file = fp))).length ≤
      max ((acc.filter (fun f => decide (f.ruleId = rid ∧ f.file = fp))).length) 5 := by
  intro RS
  induction RS with
  | nil =>
    intro fp content lines acc rid hnd hacc
    rw [rulesFold]
    exact Nat.le_max_left _ _
  | cons rule rest ih =>
    intro fp content lines acc rid hnd hacc
    obtain ⟨offs, h1, -, -⟩ :=
      ruleScanF_spec (content.length + 1) rule fp content lines 0 acc
    have hnew : ∀ f ∈ (offs.map (mkFinding rule fp content lines)),
        f.ruleId = rule.id ∧ f.file = fp := by
      intro f hfm
      obtain ⟨j, -, rfl⟩ := List.mem_map.mp hfm
      exact ⟨rfl, rfl⟩
    have hnd' : (∀ x ∈ rest, ¬ x.id = rule.id) ∧ (rest.map Rule.id).Nodup := by
      simpa using hnd
    have hnd2 : (rest.map Rule.id).Nodup := hnd'.2
    have hacc' : ∀ r ∈ rest,
        ∀ f ∈ ruleScanF (content.length + 1) rule fp content lines 0 acc,
        ¬(f.ruleId = r.id ∧ f.file = fp) := by
      intro r hr f hf
      rw [h1] at hf
      rcases List.mem_append.mp hf with hfa | hfm
      · exact hacc r (List.mem_cons_of_mem _ hr) f hfa
      · obtain ⟨hid, -⟩ := hnew f hfm
        intro hcon
        exact hnd'.1 r hr (hcon.1.symm.trans hid)
    rw [rulesFold]
    by_cases hrid : rule.id = rid
    · subst hrid
      have hzero : (acc.filter
          (fun f => decide (f.ruleId = rule.id ∧ f.file = fp))).length = 0 := by
        rw [List.length_eq_zero, List.filter_eq_nil_iff]
        intro f hfa
        simpa using hacc rule (List.mem_cons_self _ _) f hfa
      have hle5 := ruleScanF_cap (content.length + 1) rule fp content lines 0 acc
        (by omega)
      have := ih fp content lines _ rule.id hnd2 hacc'
      omega
    · have hsame : ((ruleScanF (content.length + 1) rule fp content lines 0
          acc).filter (fun f => decide (f.ruleId = rid ∧ f.file = fp))).length =
          (acc.filter (fun f => decide (f.ruleId = rid ∧ f.file = fp))).length := by
        rw [h1, List.filter_append, List.length_append]
        have : (offs.map (mkFinding rule fp content lines)).filter
            (fun f => decide (f.ruleId = rid ∧ f.file = fp)) = [] := by
          rw [List.filter_eq_nil_iff]
          intro f hfm
          obtain ⟨hid, -⟩ := hnew f hfm
          simp only [decide_eq_true_eq, not_and]
          intro hc
          exact absurd (hid ▸ hc) hrid
        rw [this]
        simp
      have := ih fp content lines _ rid hnd2 hacc'
      omega

/-! ## Claim C1 -/

/-- C1: for every file content, rule id and file path, `checkFile` returns at
most 5 findings carrying that rule id for that file, even when the rule's
pattern matches more than 5 times; and the scan still runs every applicable
rule — the output decomposes into exactly one segment per applicable rule, in
catalog order. -/
theorem C1_per_rule_cap (fp content : Str) (rid : Str) :
    ((checkFile fp content).filter
        (fun f => decide (f.ruleId = rid ∧ f.file = fp))).length ≤ 5 ∧
    checkFile fp content = (checkFileSegments fp content).flatten ∧
    (checkFileSegments fp content).length =
      (getRulesForLanguage (getLanguage fp)).length := by
  refine ⟨?_, checkFile_eq_flatten fp content,
    (segmentsAux_forall₂ _ fp content (splitLines content) []).length_eq⟩
  have hnd : ((getRulesForLanguage (getLanguage fp)).map Rule.id).Nodup := by
    have hbig : (RULES.map Rule.id).Nodup := by decide
    have hsub : List.Sublist
        ((getRulesForLanguage (getLanguage fp)).map Rule.id)
        (RULES.map Rule.id) :=
      List.Sublist.map Rule.id (List.filter_sublist RULES)
    exact hbig.sublist hsub
  have := rulesFold_count (getRulesForLanguage (getLanguage fp)) fp content
    (splitLines content) [] rid hnd (by intro r hr f hf; cases hf)
  rw [checkFile]
  simp only [List.filter_nil, List.length_nil] at this
  omega

/-! ## Claim C2 -/

/-- The computed minimum rank for a present floor string is the floor's
looked-up rank value. -/
theorem minRankOf_some (s : Str) : minRankOf (some s) = rankOrDefault s := by
  rw [minRankOf]
  by_cases h : s = []
  · subst h
    decide
  · rw [if_neg h]

/-- Against an inherited right-hand side, the JS `>=` comparison is false
(numeric coercion of the inherited member is `NaN`). -/
theorem jsGe_inherited (v : JsRank) (k : Str) :
    jsGe v (JsRank.inherited k) = false := by
  cases v <;> rfl

/-- Every catalog rule carries one of the four severity strings. -/
theorem RULES_severity_num :
    ∀ r ∈ RULES, (severityRank r.severity).isSome = true := by decide

/-- Findings of `checkFile` always have a numeric severity rank. -/
theorem checkFile_rank_num {fp content : Str} {f : Finding}
    (hf : f ∈ checkFile fp content) :
    ∃ n : Nat, rankOrDefault f.severity = JsRank.num n := by
  obtain ⟨rule, hrule, j, rfl, -⟩ := checkFile_mem hf
  have hr : rule ∈ RULES := by
    rw [getRulesForLanguage] at hrule
    exact (List.mem_filter.mp hrule).1
  have hsome := RULES_severity_num rule hr
  cases hsev : severityRank rule.severity with
  | none => rw [hsev] at hsome; cases hsome
  | some n =>
    refine ⟨n, ?_⟩
    rw [show (mkFinding rule fp content (splitLines content) j).severity =
      rule.severity from rfl]
    rw [rankOrDefault, jsRankLookup, hsev]
    rfl

/-- Rank floor 0 retains every `checkFile` finding. -/
theorem filter_rank_zero {fp content : Str} :
    (checkFile fp content).filter
      (fun f => jsGe (rankOrDefault f.severity) (JsRank.num 0)) =
      checkFile fp content := by
  rw [List.filter_eq_self]
  intro f hf
  obtain ⟨n, hn⟩ := checkFile_rank_num hf
  rw [hn]
  simp [jsGe]

/-- Filtering by a severity floor commutes with the aggregation loop. -/
theorem checkFilesGo_filter (readFn : Str → Option Str) (m : JsRank) :
    ∀ paths : List Str,
    checkFilesGo readFn m paths =
      (checkFilesGo readFn (JsRank.num 0) paths).filter
        (fun f => jsGe (rankOrDefault f.severity) m) := by
  intro paths
  induction paths with
  | nil => rfl
  | cons p rest ih =>
    cases hr : readFn p with
    | none => simp only [checkFilesGo, hr, ih]
    | some content =>
      simp only [checkFilesGo, hr, ih, List.filter_append]
      rw [filter_rank_zero]

/-- An inherited minimum rank filters out every finding of the batch. -/
theorem checkFilesGo_inherited (readFn : Str → Option Str) (k : Str) :
    ∀ paths : List Str,
    checkFilesGo readFn (JsRank.inherited k) paths = [] := by
  intro paths
  induction paths with
  | nil => rfl
  | cons p rest ih =>
    cases hr : readFn p with
    | none => simp only [checkFilesGo, hr, ih]
    | some content =>
      simp only [checkFilesGo, hr, ih, List.append_nil]
      rw [List.filter_eq_nil_iff]
      intro f hf
      rw [jsGe_inherited]
      simp

/-- Every aggregated finding has a numeric severity rank. -/
theorem checkFilesGo_rank_num (readFn : Str → Option Str) (m : JsRank) :
    ∀ (paths : List Str) (f : Finding), f ∈ checkFilesGo readFn m paths →
    ∃ n : Nat, rankOrDefault f.severity = JsRank.num n := by
  intro paths
  induction paths with
  | nil => intro f hf; cases hf
  | cons p rest ih =>
    intro f hf
    cases hr : readFn p with
    | none =>
      rw [checkFilesGo, hr] at hf
      exact ih f hf
    | some content =>
      rw [checkFilesGo, hr] at hf
      rcases List.mem_append.mp hf with hfl | hfr
      · exact checkFile_rank_num (List.mem_filter.mp hfl).1
      · exact ih f hfr

/-- Keys inherited from `Object.prototype` are not severity strings and are
nonempty (hence truthy). -/
theorem protoKeys_not_severity :
    ∀ s ∈ objectProtoKeys, severityRank s = none ∧ s ≠ [] := by decide

/-- Concrete content provider used by witnesses: one unreadable path, all
other paths holding an unbounded SQL query. -/
def wReadFn : Str → Option Str :=
  fun p => if p = str "bad.sql" then none else some (str "SELECT * FROM users")

set_option maxRecDepth 40000 in
/-- Counterexample to C2 as stated: the floor `constructor` is not one of the
four severity values, yet it does not default to rank 0 (no filtering) —
the object-literal lookup returns the inherited
`Object.prototype.constructor`, every rank comparison against it is false,
and the whole batch is filtered to empty while the unfiltered run is not. -/
theorem C2_counterexample :
    checkFiles [str "a.sql"] wReadFn (some (str "constructor")) = [] ∧
    checkFiles [str "a.sql"] wReadFn none ≠ [] := by decide

/-- C2 (amended): a finding is retained by `checkFiles` exactly when the JS
comparison `rank(f.severity) >= rank(floor)` holds under low=0, medium=1,
high=2, critical=3; a floor that is neither a severity value nor an
`Object.prototype` key gets minimum rank 0 and filters nothing, while a floor
that is an `Object.prototype` key (e.g. `constructor`, `toString`,
`__proto__`) receives the inherited non-numeric member and filters out every
finding. -/
theorem C2_severity_filter (paths : List Str) (readFn : Str → Option Str)
    (s : Str) :
    checkFiles paths readFn (some s) =
      (checkFiles paths readFn none).filter
        (fun f => jsGe (rankOrDefault f.severity) (rankOrDefault s)) ∧
    (severityRank s = none → objectProtoKeys.contains s = false →
      checkFiles paths readFn (some s) = checkFiles paths readFn none) ∧
    (objectProtoKeys.contains s = true →
      checkFiles paths readFn (some s) = []) := by
  have h1 : checkFiles paths readFn (some s) =
      (checkFiles paths readFn none).filter
        (fun f => jsGe (rankOrDefault f.severity) (rankOrDefault s)) := by
    rw [checkFiles, checkFiles, minRankOf_some]
    rw [show minRankOf none = JsRank.num 0 from rfl]
    exact checkFilesGo_filter readFn (rankOrDefault s) paths
  refine ⟨h1, fun hs hc => ?_, fun hc => ?_⟩
  · have h0 : rankOrDefault s = JsRank.num 0 := by
      rw [rankOrDefault, jsRankLookup, hs, hc]
      rfl
    rw [h1, h0, List.filter_eq_self]
    intro f hf
    rw [checkFiles] at hf
    obtain ⟨n, hn⟩ := checkFilesGo_rank_num readFn _ paths f hf
    rw [hn]
    simp [jsGe]
  · have hmem : s ∈ objectProtoKeys := List.mem_of_elem_eq_true hc
    obtain ⟨hsev, hne⟩ := protoKeys_not_severity s hmem
    have hro : rankOrDefault s = JsRank.inherited s := by
      rw [rankOrDefault, jsRankLookup, hsev, hc]
      rfl
    have hm : minRankOf (some s) = JsRank.inherited s := by
      rw [minRankOf_some, hro]
    rw [checkFiles, hm]
    exact checkFilesGo_inherited readFn s paths

/-- Witness for the amended C2: the unrecognized non-prototype floor `loud`
filters nothing, while the `Object.prototype` key `toString` empties the
batch. -/
theorem C2_severity_filter_witness :
    (checkFiles [str "a.sql"] wReadFn (some (str "loud")) =
      checkFiles [str "a.sql"] wReadFn none) ∧
    (checkFiles [str "a.sql"] wReadFn (some (str "toString")) = []) :=
  ⟨(C2_severity_filter [str "a.sql"] wReadFn (str "loud")).2.1
      (by decide) (by decide),
   (C2_severity_filter [str "a.sql"] wReadFn (str "toString")).2.2 (by decide)⟩

/-! ## Claim C4 -/

/-- The aggregation loop distributes over list concatenation. -/
theorem checkFilesGo_append (readFn : Str → Option Str) (m : JsRank) :
    ∀ xs ys : List Str,
    checkFilesGo readFn m (xs ++ ys) =
      checkFilesGo readFn m xs ++ checkFilesGo readFn m ys := by
  intro xs ys
  induction xs with
  | nil => rfl
  | cons p rest ih =>
    cases hr : readFn p with
    | none => simp only [List.cons_append, checkFilesGo, hr, List.append_eq, ih]
    | some content => simp only [List.cons_append, checkFilesGo, hr,
        List.append_eq, ih, List.append_assoc]

/-- Every finding of a `checkFile` run is stamped with the scanned file path. -/
theorem checkFile_file {fp content : Str} {f : Finding}
    (hf : f ∈ checkFile fp content) : f.file = fp := by
  obtain ⟨rule, -, j, rfl, -⟩ := checkFile_mem hf
  rfl

/-- Every aggregated finding's file is one of the scanned paths. -/
theorem checkFilesGo_file (readFn : Str → Option Str) (m : JsRank) :
    ∀ (paths : List Str) (f : Finding), f ∈ checkFilesGo readFn m paths →
    ∃ p ∈ paths, f.file = p := by
  intro paths
  induction paths with
  | nil => intro f hf; cases hf
  | cons p rest ih =>
    intro f hf
    cases hr : readFn p with
    | none =>
      rw [checkFilesGo, hr] at hf
      obtain ⟨q, hq, hfq⟩ := ih f hf
      exact ⟨q, List.mem_cons_of_mem _ hq, hfq⟩
    | some content =>
      rw [checkFilesGo, hr] at hf
      rcases List.mem_append.mp hf with hfl | hfr
      · exact ⟨p, List.mem_cons_self _ _,
          checkFile_file (List.mem_filter.mp hfl).1⟩
      · obtain ⟨q, hq, hfq⟩ := ih f hfr
        exact ⟨q, List.mem_cons_of_mem _ hq, hfq⟩

/-- C4: when reading one path fails, `checkFiles` returns exactly the
(severity-filtered) findings of the remaining paths, in order, with no finding
attributed to the unreadable path. -/
theorem C4_skip_unreadable (xs ys : List Str) (p : Str)
    (readFn : Str → Option Str) (sev : Option Str)
    (hp : readFn p = none) (hx : p ∉ xs) (hy : p ∉ ys) :
    checkFiles (xs ++ p :: ys) readFn sev = checkFiles (xs ++ ys) readFn sev ∧
    ∀ f ∈ checkFiles (xs ++ p :: ys) readFn sev, f.file ≠ p := by
  have heq : checkFiles (xs ++ p :: ys) readFn sev =
      checkFiles (xs ++ ys) readFn sev := by
    rw [checkFiles, checkFiles, checkFilesGo_append, checkFilesGo_append]
    congr 1
    rw [checkFilesGo, hp]
  refine ⟨heq, fun f hf => ?_⟩
  rw [heq, checkFiles] at hf
  obtain ⟨q, hq, hfq⟩ := checkFilesGo_file readFn _ _ f hf
  intro hcon
  rcases List.mem_append.mp hq with hqx | hqy
  · exact hx ((hfq ▸ hcon) ▸ hqx)
  · exact hy ((hfq ▸ hcon) ▸ hqy)

/-- Witness for C4 at a concrete path list with one unreadable path. -/
theorem C4_skip_unreadable_witness :
    checkFiles [str "a.sql", str "bad.sql", str "b.sql"] wReadFn none =
      checkFiles [str "a.sql", str "b.sql"] wReadFn none ∧
    ∀ f ∈ checkFiles [str "a.sql", str "bad.sql", str "b.sql"] wReadFn none,
      f.file ≠ str "bad.sql" :=
  C4_skip_unreadable [str "a.sql"] [str "b.sql"] (str "bad.sql") wReadFn none
    (by decide) (by decide) (by decide)

/-! ## Claim C5 -/

/-- C5: the match loop of `checkFile` terminates for every content and rule,
zero-width-capable patterns included: a zero-width match advances the scan
cursor by one character, and the loop's result is already reached with fuel
`content.length + 1 - lastIndex` — the cursor strictly advances, so the loop
always exits within that many iterations. -/
theorem C5_zero_width_termination (rule : Rule) (fp content : Str)
    (lines : List Str) :
    (∀ (fuel li : Nat) (acc : List Finding) (j : Nat),
      reExec rule.pattern content li = some (j, j) →
      ruleScanF (fuel + 1) rule fp content lines li acc =
        ruleScanF fuel rule fp content lines (j + 1) acc) ∧
    (∀ (li : Nat) (acc : List Finding) (fuel : Nat),
      content.length + 1 - li ≤ fuel →
      ruleScanF fuel rule fp content lines li acc =
        ruleScanF (content.length + 1 - li) rule fp content lines li acc) := by
  constructor
  · intro fuel li acc j h
    exact ruleScanF_zw fuel h
  · intro li acc fuel hf
    exact ruleScanF_stable (content.length + 1 - li) rule fp content lines li rfl
      fuel (content.length + 1 - li) acc hf (Nat.le_refl _)

/-- A rule whose pattern `a*` can match the empty string, used to witness the
zero-width guard on concrete input. -/
def starARule : Rule :=
  { id := str "star-a", name := str "star a", severity := str "low",
    languages := [str "txt"], pattern := RE.star (chr 'a'),
    message := str "m", suggestion := str "s" }

/-- Witness for C5: on `"bab"`, the pattern `a*` zero-width-matches at offset
0, the step just advances the cursor, and fuel 4 = length + 1 already gives
the loop's final result. -/
theorem C5_zero_width_termination_witness :
    ruleScanF 4 starARule (str "t.txt") (str "bab") [str "bab"] 0 [] =
      ruleScanF 3 starARule (str "t.txt") (str "bab") [str "bab"] 1 [] ∧
    ruleScanF 99 starARule (str "t.txt") (str "bab") [str "bab"] 0 [] =
      ruleScanF 4 starARule (str "t.txt") (str "bab") [str "bab"] 0 [] :=
  ⟨(C5_zero_width_termination starARule (str "t.txt") (str "bab")
      [str "bab"]).1 3 0 [] 0 (by decide),
   (C5_zero_width_termination starARule (str "t.txt") (str "bab")
      [str "bab"]).2 0 [] 99 (by decide)⟩

/-! ## Claim C9 -/

/-- C9: a pattern match that consumes zero characters never produces a
finding — the loop only advances the cursor past it — and every finding that
`checkFile` does emit is created from a positive-length match of an applicable
rule. -/
theorem C9_no_zero_width_finding (fp content : Str) :
    (∀ (rule : Rule) (lines : List Str) (fuel li : Nat) (acc : List Finding)
      (j : Nat), reExec rule.pattern content li = some (j, j) →
      ruleScanF (fuel + 1) rule fp content lines li acc =
        ruleScanF fuel rule fp content lines (j + 1) acc) ∧
    (∀ f ∈ checkFile fp content,
      ∃ rule ∈ getRulesForLanguage (getLanguage fp), ∃ i0 j e,
        reExec rule.pattern content i0 = some (j, e) ∧ j < e ∧
        f = mkFinding rule fp content (splitLines content) j) := by
  constructor
  · intro rule lines fuel li acc j h
    exact ruleScanF_zw fuel h
  · intro f hf
    obtain ⟨rule, hrule, j, rfl, i0, e, hx, hje⟩ := checkFile_mem hf
    exact ⟨rule, hrule, i0, j, e, hx, hje, rfl⟩

/-- The single finding produced for `SELECT * FROM users` in a `.sql` file. -/
def sqlFinding : Finding :=
  { ruleId := str "unbounded-query", ruleName := str "Unbounded SQL Query",
    severity := str "high", file := str "query.sql", line := 1,
    snippet := str "SELECT * FROM users",
    message := str "SELECT without LIMIT can return millions of rows and exhaust memory.",
    suggestion := str "Always add a LIMIT clause or paginate results. For reports, stream the result set." }

/-- Witness for C9 at the concrete SQL finding. -/
theorem C9_no_zero_width_finding_witness :
    ∃ rule ∈ getRulesForLanguage (getLanguage (str "query.sql")), ∃ i0 j e,
      reExec rule.pattern (str "SELECT * FROM users") i0 = some (j, e) ∧ j < e ∧
      sqlFinding = mkFinding rule (str "query.sql") (str "SELECT * FROM users")
        (splitLines (str "SELECT * FROM users")) j :=
  (C9_no_zero_width_finding (str "query.sql") (str "SELECT * FROM users")).2
    sqlFinding (by decide)

/-! ## Claim C6 -/

/-- The aggregation loop is the flattened path-ordered list of per-file
filtered results. -/
theorem checkFilesGo_flatten (readFn : Str → Option Str) (m : JsRank) :
    ∀ paths : List Str,
    checkFilesGo readFn m paths =
      (paths.map (fun p =>
        match readFn p with
        | none => []
        | some content => (checkFile p content).filter
            (fun f => jsGe (rankOrDefault f.severity) m))).flatten := by
  intro paths
  induction paths with
  | nil => rfl
  | cons p rest ih =>
    cases hr : readFn p with
    | none => simp only [checkFilesGo, hr, ih, List.map_cons, List.flatten_cons,
        List.nil_append]
    | some content => simp only [checkFilesGo, hr, ih, List.map_cons,
        List.flatten_cons]

/-- C6: `checkFiles` output is ordered by file-iteration order; within a file,
findings are grouped by catalog declaration order (the applicable rules are a
sublist of `RULES` in order), and within one rule they follow the order of its
matches in the content (strictly increasing match offsets). -/
theorem C6_ordering :
    (∀ (paths : List Str) (readFn : Str → Option Str) (sev : Option Str),
      checkFiles paths readFn sev =
        (paths.map (fun p =>
          match readFn p with
          | none => []
          | some content => (checkFile p content).filter
              (fun f => jsGe (rankOrDefault f.severity) (minRankOf sev)))).flatten) ∧
    (∀ fp content : Str,
      checkFile fp content = (checkFileSegments fp content).flatten ∧
      List.Sublist (getRulesForLanguage (getLanguage fp)) RULES ∧
      List.Forall₂ (fun seg rule => ∃ offs : List Nat,
          List.Chain' (· < ·) offs ∧
          seg = offs.map (mkFinding rule fp content (splitLines content)))
        (checkFileSegments fp content) (getRulesForLanguage (getLanguage fp))) := by
  constructor
  · intro paths readFn sev
    rw [checkFiles]
    exact checkFilesGo_flatten readFn (minRankOf sev) paths
  · intro fp content
    refine ⟨checkFile_eq_flatten fp content, List.filter_sublist RULES, ?_⟩
    refine List.Forall₂.imp ?_
      (segmentsAux_forall₂ (getRulesForLanguage (getLanguage fp)) fp content
        (splitLines content) [])
    rintro seg rule ⟨offs, hch, heq, -⟩
    exact ⟨offs, hch, heq⟩

/-! ## Claim C7 -/

/-- Dropping to the last dot index exposes a leading dot. -/
theorem lastDotIdx_drop : ∀ (b : Str) (d : Nat), lastDotIdx b = some d →
    ∃ r : Str, b.drop d = '.' :: r := by
  intro b
  induction b with
  | nil => intro d h; cases h
  | cons c rest ih =>
    intro d h
    rw [lastDotIdx] at h
    cases hr : lastDotIdx rest with
    | some k =>
      rw [hr] at h
      cases h
      obtain ⟨r, hrr⟩ := ih k hr
      exact ⟨r, by simpa using hrr⟩
    | none =>
      rw [hr] at h
      by_cases hc : c = '.'
      · rw [if_pos hc] at h
        cases h
        exact ⟨rest, by simp [hc]⟩
      · rw [if_neg hc] at h
        cases h

/-- Function `extname` returns either the empty string or a dot followed by the
extension proper. -/
theorem extname_shape (p : Str) :
    extname p = [] ∨ ∃ r : Str, extname p = '.' :: r := by
  simp only [extname]
  by_cases hb : basenameOf (dropTrailingSlashes p) = str ".."
  · rw [if_pos hb]
    exact Or.inl rfl
  · rw [if_neg hb]
    cases hd : lastDotIdx (basenameOf (dropTrailingSlashes p)) with
    | none => exact Or.inl rfl
    | some d =>
      cases d with
      | zero => exact Or.inl rfl
      | succ d' =>
        obtain ⟨r, hr⟩ := lastDotIdx_drop _ _ hd
        exact Or.inr ⟨r, hr⟩

/-- On any value `extname` can return, lowercasing then removing the first dot
agrees with stripping the leading dot then lowercasing. -/
theorem replace_toLower_comm (x : Str) (hx : x = [] ∨ ∃ r : Str, x = '.' :: r) :
    replaceFirstDot (toLowerStr x) = toLowerStr (stripLeadingDot x) := by
  rcases hx with rfl | ⟨r, rfl⟩
  · rfl
  · rw [toLowerStr, List.map_cons]
    rw [show Char.toLower '.' = '.' from rfl]
    rw [replaceFirstDot, if_pos rfl, stripLeadingDot, if_pos rfl]
    rfl

/-- The object-literal lookup of `getLanguage` agrees with the spec table. -/
theorem langTable_lookup (e : Str) : langTable.lookup e = extMap e := by
  by_cases h1 : e = str "js"
  · subst h1; decide
  by_cases h2 : e = str "mjs"
  · subst h2; decide
  by_cases h3 : e = str "cjs"
  · subst h3; decide
  by_cases h4 : e = str "jsx"
  · subst h4; decide
  by_cases h5 : e = str "ts"
  · subst h5; decide
  by_cases h6 : e = str "tsx"
  · subst h6; decide
  by_cases h7 : e = str "py"
  · subst h7; decide
  by_cases h8 : e = str "go"
  · subst h8; decide
  by_cases h9 : e = str "sql"
  · subst h9; decide
  have b1 : (e == str "js") = false := beq_eq_false_iff_ne.mpr h1
  have b2 : (e == str "mjs") = false := beq_eq_false_iff_ne.mpr h2
  have b3 : (e == str "cjs") = false := beq_eq_false_iff_ne.mpr h3
  have b4 : (e == str "jsx") = false := beq_eq_false_iff_ne.mpr h4
  have b5 : (e == str "ts") = false := beq_eq_false_iff_ne.mpr h5
  have b6 : (e == str "tsx") = false := beq_eq_false_iff_ne.mpr h6
  have b7 : (e == str "py") = false := beq_eq_false_iff_ne.mpr h7
  have b8 : (e == str "go") = false := beq_eq_false_iff_ne.mpr h8
  have b9 : (e == str "sql") = false := beq_eq_false_iff_ne.mpr h9
  have hl : langTable.lookup e = none := by
    simp [langTable, List.lookup, b1, b2, b3, b4, b5, b6, b7, b8, b9]
  have hm : extMap e = none := by
    simp [extMap, h1, h2, h3, h4, h5, h6, h7, h8, h9]
  rw [hl, hm]

/-- Counterexample to C7 as stated: the unknown extension `constructor` is
not passed through unchanged as a string tag — the object-literal lookup
`map[ext] ?? ext` returns the member inherited from `Object.prototype` —
and likewise `__proto__` yields the inherited prototype object, so
`getLanguage` does not produce a string tag for every input. -/
theorem C7_counterexample :
    getLanguage (str "a.constructor") = JsStr.inherited (str "constructor") ∧
    getLanguage (str "a.constructor") ≠ JsStr.strv (str "constructor") ∧
    getLanguage (str "a.__proto__") = JsStr.inherited (str "__proto__") := by
  decide

/-- C7 (amended): for paths whose extension is ASCII (where `Char.toLower`
agrees with JS `toLowerCase`), `getLanguage` coincides with the spec-modelled
resolver: the extension, extracted case-insensitively with the leading dot
stripped, is mapped through the table `js,mjs,cjs,jsx→js; ts,tsx→ts; py→py;
go→go; sql→sql`; an unknown extension that is not an `Object.prototype` key
passes through unchanged as the tag, while an `Object.prototype` key yields
the inherited member instead of a string tag.  The ASCII hypothesis marks the
domain on which the model's `toLowerStr` agrees with the JS `toLowerCase`. -/
theorem C7_language_resolution (p : Str)
    (_hascii : ∀ c ∈ extname p, c.toNat < 128) :
    getLanguage p = languageSpec p := by
  rw [getLanguage, languageSpec,
    replace_toLower_comm (extname p) (extname_shape p), langTable_lookup]
  cases hm : extMap (toLowerStr (stripLeadingDot (extname p))) with
  | some t => simp [jsExtLookup, hm]
  | none =>
    by_cases hmem : toLowerStr (stripLeadingDot (extname p)) ∈ objectProtoKeys
    · simp [jsExtLookup, hm, hmem]
    · simp [jsExtLookup, hm, hmem]

/-- Witness for the amended C7 at a concrete mixed-case ASCII path. -/
theorem C7_language_resolution_witness :
    getLanguage (str "src/Query.SQL") = languageSpec (str "src/Query.SQL") :=
  C7_language_resolution (str "src/Query.SQL") (by decide)

/-! ## Claim C8 -/

/-- C8: running `checkFile` on a `.sql` file whose entire content is
`SELECT * FROM users` returns exactly one finding, with rule id
`unbounded-query` and severity `high`. -/
theorem C8_unbounded_query_example :
    (checkFile (str "query.sql") (str "SELECT * FROM users")).map
      (fun f => (f.ruleId, f.severity)) =
      [(str "unbounded-query", str "high")] := by decide

/-! ## Claim C10 -/

/-- C10: every finding of `checkFile` is well-formed: its file is the scanned
path, its line is between 1 and one plus the number of line feeds in the
content, its snippet is at most 120 characters, and its rule metadata fields
are exact copies from a catalog rule whose language set contains the file's
resolved language tag. -/
theorem C10_wellformed (fp content : Str) (f : Finding)
    (hf : f ∈ checkFile fp content) :
    f.file = fp ∧ 1 ≤ f.line ∧
    f.line ≤ 1 + (content.filter (fun c => decide (c = '\n'))).length ∧
    f.snippet.length ≤ 120 ∧
    ∃ r ∈ RULES, (r.languages.map JsStr.strv).contains (getLanguage fp) = true ∧
      f.ruleId = r.id ∧ f.ruleName = r.name ∧ f.severity = r.severity ∧
      f.message = r.message ∧ f.suggestion = r.suggestion := by
  obtain ⟨rule, hrule, j, rfl, -⟩ := checkFile_mem hf
  rw [getRulesForLanguage] at hrule
  have hmem := List.mem_filter.mp hrule
  exact ⟨rfl, getLineNumber_pos content j, getLineNumber_le content j,
    getSnippet_length _ _, rule, hmem.1, hmem.2, rfl, rfl, rfl, rfl, rfl⟩

/-- Witness for C10 at the concrete SQL finding. -/
theorem C10_wellformed_witness :
    sqlFinding.file = str "query.sql" ∧ 1 ≤ sqlFinding.line ∧
    sqlFinding.line ≤ 1 + ((str "SELECT * FROM users").filter
      (fun c => decide (c = '\n'))).length ∧
    sqlFinding.snippet.length ≤ 120 ∧
    ∃ r ∈ RULES, (r.languages.map JsStr.strv).contains
        (getLanguage (str "query.sql")) = true ∧
      sqlFinding.ruleId = r.id ∧ sqlFinding.ruleName = r.name ∧
      sqlFinding.severity = r.severity ∧ sqlFinding.message = r.message ∧
      sqlFinding.suggestion = r.suggestion :=
  C10_wellformed (str "query.sql") (str "SELECT * FROM users") sqlFinding
    (by decide)

/-! ## Claim C3 -/

/-- A one-line SQL file whose raw line is 121 characters long (102 spaces of
indentation before a 19-character query) but whose trimmed line has length 19. -/
def c3content : Str := List.replicate 102 ' ' ++ str "SELECT * FROM users"

set_option maxRecDepth 40000 in
/-- Counterexample to C3 as stated: this file's single line is 121 characters
long (longer than 120) and contains a match, yet the emitted snippet has
length 19 — not 120, and without a `...` suffix — because the code tests the
length of the trimmed line, not of the line itself. -/
theorem C3_counterexample :
    (checkFile (str "q.sql") c3content).map
      (fun f => (((splitLines c3content).getD (f.line - 1) []).length,
        f.snippet.length)) = [(121, 19)] := by decide

/-- C3 (amended): snippet truncation is decided by the length of the trimmed
line. If the trimmed line of a finding is longer than 120 characters, the
snippet is its characters 0–116 followed by `...`, 120 characters total;
if the trimmed line is at most 120 characters, the snippet is the trimmed
line unchanged. -/
theorem C3_snippet_truncation (fp content : Str) (f : Finding)
    (hf : f ∈ checkFile fp content) :
    (120 < (jsTrim ((splitLines content).getD (f.line - 1) [])).length →
      f.snippet = (jsTrim ((splitLines content).getD (f.line - 1) [])).take 117
        ++ str "..." ∧ f.snippet.length = 120) ∧
    ((jsTrim ((splitLines content).getD (f.line - 1) [])).length ≤ 120 →
      f.snippet = jsTrim ((splitLines content).getD (f.line - 1) [])) := by
  obtain ⟨rule, -, j, rfl, -⟩ := checkFile_mem hf
  simp only [mkFinding, getSnippet]
  constructor
  · intro h
    rw [if_pos h]
    refine ⟨rfl, ?_⟩
    rw [List.length_append, List.length_take]
    rw [show (str "...").length = 3 from rfl]
    omega
  · intro h
    rw [if_neg (by omega)]

/-- Witness for the amended C3 at the concrete SQL finding, whose trimmed line
has length 19 ≤ 120. -/
theorem C3_snippet_truncation_witness :
    sqlFinding.snippet =
      jsTrim ((splitLines (str "SELECT * FROM users")).getD
        (sqlFinding.line - 1) []) :=
  (C3_snippet_truncation (str "query.sql") (str "SELECT * FROM users")
    sqlFinding (by decide)).2 (by decide)
